import Mathlib

/-!
Verification of the codesync annotation matching and consistency engine.

Strings are modelled as `List Char` (byte strings for the KMP matcher as
`List Nat`).  Character classification (`is_lowercase`, `is_uppercase`,
`is_alphanumeric`, `is_whitespace`) is modelled faithfully for the ASCII
range via Lean's `Char.isLower`, `Char.isUpper`, `Char.isAlphanum` and an
explicit ASCII whitespace predicate; general theorems that depend on the
classification are therefore stated for ASCII inputs.  `to_ascii_lowercase`
and `to_ascii_uppercase` coincide with `Char.toLower`/`Char.toUpper` on all
characters.
-/

namespace Codesync

/-! ## src/kmp.rs -/

/-- Embedding of the loop of `kmp::search` (src/kmp.rs).  The Rust loop runs
while `t_i < haystack.len() && p_i < needle.len()`; the haystack pointer
`t_i` advances on every iteration, so we recurse structurally on the
remaining haystack suffix while tracking `t_i` for the reported offset.
On a character match the code records `t_i` into `result_idx` whenever
`result_idx == 0` (using `0` as an "unset" sentinel) and returns
`result_idx` once `p_i` reaches the needle length; on a mismatch it resets
`p_i` through the failure table, advances `t_i`, and clears `result_idx`. -/
def searchGo (needle table : List Nat) : List Nat → Nat → Nat → Nat → Option Nat
  | [], _, _, _ => none
  | c :: rest, t_i, p_i, result_idx =>
    if p_i < needle.length then
      if c = needle.getD p_i 0 then
        let r := if result_idx = 0 then t_i else result_idx
        if p_i + 1 ≥ needle.length then some r
        else searchGo needle table rest (t_i + 1) (p_i + 1) r
      else
        let p := if p_i = 0 then 0 else table.getD (p_i - 1) 0
        searchGo needle table rest (t_i + 1) p 0
    else none

/-- Embedding of `kmp::search` (src/kmp.rs): all three mutable locals start
at `0`. -/
def search (haystack needle table : List Nat) : Option Nat :=
  searchGo needle table haystack 0 0 0

/-- Embedding of the loop of `kmp::table` (src/kmp.rs).  Each iteration
either advances `i` (bounded by `m = p.length`) or strictly decreases `j`
(bounded by `m`), so `m * m + m + 1` steps of fuel always suffice; the
out-of-fuel branch is unreachable for the fuel supplied by `table`. -/
def tableGo (p : List Nat) : Nat → List Nat → Nat → Nat → List Nat
  | 0, t, _, _ => t
  | fuel + 1, t, i, j =>
    if i < p.length then
      if p.getD i 0 = p.getD j 0 then
        tableGo p fuel (t.set i (j + 1)) (i + 1) (j + 1)
      else if j = 0 then
        tableGo p fuel (t.set i 0) (i + 1) 0
      else
        tableGo p fuel t i (t.getD (j - 1) 0)
    else t

/-- Embedding of `kmp::table` (src/kmp.rs): the table starts as `N` zeros
(`[0; N]` with `N = p.len()`), `i = 1`, `j = 0`. -/
def table (p : List Nat) : List Nat :=
  tableGo p (p.length * p.length + p.length + 1) (List.replicate p.length 0) 1 0

/-! ## src/lib.rs: the annotation parser -/

/-- Rust `char::is_whitespace` restricted to the ASCII range (space, tab,
line feed, vertical tab, form feed, carriage return). -/
def rustIsWhitespace (c : Char) : Bool :=
  c = ' ' || c = '\t' || c = '\n' || c = '\x0b' || c = '\x0c' || c = '\r'

/-- Rust `str::trim`: remove leading and trailing whitespace. -/
def trim (s : List Char) : List Char :=
  ((s.dropWhile rustIsWhitespace).reverse.dropWhile rustIsWhitespace).reverse

/-- Byte length of a character list under UTF-8, matching the byte offsets
the `regex` crate reports for capture groups. -/
def utf8Len (s : List Char) : Nat :=
  s.foldr (fun c n => c.utf8Size + n) 0

/-- Embedding of `ArgsError` (src/lib.rs). -/
inductive ArgsError where
  | malformed : ArgsError
  | invalidCount (start stop : Nat) : ArgsError
deriving DecidableEq

/-- Embedding of `Arg<T>` (src/lib.rs): processed value, raw matched
substring, and the absolute byte span of the match within the file. -/
structure Arg (α : Type) where
  val : α
  match_ : List Char
  spanStart : Nat
  spanStop : Nat
deriving DecidableEq

/-- Embedding of `Arg::has_extra_whitespace` (src/lib.rs):
`match_.trim() != match_`. -/
def hasExtraWhitespace {α : Type} (a : Arg α) : Bool :=
  trim a.match_ ≠ a.match_

/-- Embedding of `Args` (src/lib.rs). -/
structure Args where
  label : Arg (List Char)
  count : Option (Arg Nat)
  len : Nat
deriving DecidableEq

/-- The character class `[^,\)]` of the first capture group. -/
def labelCharOk (c : Char) : Bool :=
  c ≠ ',' && c ≠ ')'

/-- The character class `[^\)]` of the second capture group. -/
def countCharOk (c : Char) : Bool :=
  c ≠ ')'

/-- The capture groups of the anchored regex
`^\(([^,\)]+)(?:,([^\)]*))?\)` from `Matcher::new` (src/lib.rs), computed
directly: after `(`, group 1 is the maximal nonempty run of characters
other than `,` and `)`; if a `,` follows, group 2 is the maximal run of
characters other than `)`; the match then requires a closing `)`.  Because
the character classes exclude the delimiters, the regex engine's
leftmost-greedy match is exactly this maximal-munch parse.  Returns
group 1, the optional group 2, and the byte length of the whole match
(`captures[0].len()`). -/
def regexCaptures (haystack : List Char) :
    Option ((List Char) × Option (List Char) × Nat) :=
  match haystack with
  | '(' :: rest =>
    let g1 := rest.takeWhile labelCharOk
    if g1.isEmpty then none
    else
      match rest.drop g1.length with
      | ')' :: _ => some (g1, none, 1 + utf8Len g1 + 1)
      | ',' :: rest2 =>
        let g2 := rest2.takeWhile countCharOk
        match rest2.drop g2.length with
        | ')' :: _ => some (g1, some g2, 1 + utf8Len g1 + 1 + utf8Len g2 + 1)
        | _ => none
      | _ => none
  | _ => none

/-- Rust `str::parse::<u16>`: an optional leading `+` sign followed by one
or more ASCII digits whose value fits in 16 bits; anything else is an
error.  (A leading `-` is rejected for unsigned integers.) -/
def parseU16 (s : List Char) : Option Nat :=
  let digits := if s.head? = some '+' then s.tail else s
  if digits ≠ [] && digits.all Char.isDigit then
    let v := digits.foldl (fun n c => n * 10 + (c.toNat - 48)) 0
    if v < 65536 then some v else none
  else none

/-- The numeric value of a run of ASCII digits, most significant first
(the accumulator loop of integer parsing). -/
def digitsVal (s : List Char) : Nat :=
  s.foldl (fun n c => n * 10 + (c.toNat - 48)) 0

instance {ε α : Type} [DecidableEq ε] [DecidableEq α] :
    DecidableEq (Except ε α) := fun a b =>
  match a, b with
  | .error e, .error f =>
    if h : e = f then .isTrue (by rw [h]) else .isFalse (by simp [h])
  | .error _, .ok _ => .isFalse (by simp)
  | .ok _, .error _ => .isFalse (by simp)
  | .ok x, .ok y =>
    if h : x = y then .isTrue (by rw [h]) else .isFalse (by simp [h])

/-- Embedding of `Matcher::parse_args` (src/lib.rs).  `byteOffset` is the
absolute byte offset at which `haystack` starts; each capture group's span
is `byteOffset` plus the group's relative start/end.  Group 1 becomes the
label (`val` trimmed, raw text in `match_`); a present group 2 is trimmed
and parsed as `u16`, a parse failure producing
`InvalidCount { start, end }` with the group's absolute span. -/
def parseArgs (byteOffset : Nat) (haystack : List Char) :
    Except ArgsError Args :=
  match regexCaptures haystack with
  | none => .error .malformed
  | some (g1, g2, len) =>
    let label : Arg (List Char) :=
      ⟨trim g1, g1, byteOffset + 1, byteOffset + 1 + utf8Len g1⟩
    match g2 with
    | none => .ok ⟨label, none, len⟩
    | some g2 =>
      let start := byteOffset + 1 + utf8Len g1 + 1
      let stop := start + utf8Len g2
      match parseU16 (trim g2) with
      | none => .error (.invalidCount start stop)
      | some v => .ok ⟨label, some ⟨v, g2, start, stop⟩, len⟩

/-! ## src/lib.rs: matches, comments and grouping -/

/-- Embedding of `Match` (src/lib.rs): the parse outcome of the text after
the marker, plus the byte offset of the start of the match. -/
structure MatchT where
  args : Except ArgsError Args
  byteOffset : Nat
deriving DecidableEq

/-- Embedding of `FileMatches` (src/lib.rs): a file path and the matches
found in that file in scan order. -/
structure FileMatches where
  path : List Char
  matches_ : List MatchT
deriving DecidableEq

/-- Embedding of `Matches` (src/lib.rs): the sequence of per-file match
collections (`files: Vec<FileMatches>`). -/
def Matches : Type := List FileMatches

/-- Embedding of `Comment` (src/lib.rs): the borrowed view of a
successfully parsed match is modelled by copying the parsed arguments, the
owning file path and the underlying match. -/
structure Comment where
  args : Args
  file : List Char
  m : MatchT
deriving DecidableEq

/-- Embedding of `InvalidMatch` (src/lib.rs). -/
structure InvalidMatch where
  error : ArgsError
  file : List Char
  m : MatchT
deriving DecidableEq

/-- Embedding of `Match::to_comment` (src/lib.rs): `Some` exactly when
`args` is `Ok`. -/
def toComment (file : List Char) (m : MatchT) : Option Comment :=
  match m.args with
  | .ok args => some ⟨args, file, m⟩
  | .error _ => none

/-- Embedding of `Match::to_invalid` (src/lib.rs): `Some` exactly when
`args` is `Err`. -/
def toInvalid (file : List Char) (m : MatchT) : Option InvalidMatch :=
  match m.args with
  | .ok _ => none
  | .error e => some ⟨e, file, m⟩

/-- Embedding of `Matches::comments` (src/lib.rs): for each file in order,
the matches that convert to comments. -/
def comments (ms : Matches) : List Comment :=
  ms.flatMap fun file => file.matches_.filterMap (toComment file.path)

/-- Embedding of `Matches::invalid_matches` (src/lib.rs). -/
def invalidMatches (ms : Matches) : List InvalidMatch :=
  ms.flatMap fun file => file.matches_.filterMap (toInvalid file.path)

/-- Embedding of `Matches::group_by_label` (src/lib.rs) viewed as the map
from a label to its group: iterating all valid comments and pushing each
onto the vector keyed by its label leaves, for every label, exactly the
subsequence of `comments` carrying that label, in scan order. -/
def groupByLabel (ms : Matches) (label : List Char) : List Comment :=
  (comments ms).filter fun c => c.args.label.val = label

/-- Embedding of `Comment::count` (src/lib.rs): the stated count, or `2`
when absent. -/
def commentCount (c : Comment) : Nat :=
  match c.args.count with
  | some a => a.val
  | none => 2

/-! ## src/main.rs: the consistency checker -/

/-- The findings the checker can emit, one constructor per diagnostic of
`FilesDB` (src/main.rs); each carries the data the diagnostic is built
from. -/
inductive Finding where
  | malformedComment (file : List Char) (start stop : Nat) : Finding
  | invalidCountArg (file : List Char) (start stop : Nat) : Finding
  | mismatchedCounts (label : List Char) (expected found : Nat) : Finding
  | inconsistentCounts (label : List Char) : Finding
  | invalidCase (label : List Char) : Finding
  | regexMismatch (label : List Char) : Finding
  | extraWhitespace (file : List Char) (start stop : Nat) : Finding
deriving DecidableEq

/-- Embedding of the decision made by `Checker::report_incorrect_counts`
(src/main.rs) for one label group: collect the distinct counts
(`HashSet` collected into a `Vec`, modelled by `dedup`); an empty list
produces nothing, a single distinct count produces a finding exactly when
the group size differs from it, and two or more distinct counts always
produce a finding. -/
def reportIncorrectCounts (label : List Char) (cmts : List Comment) :
    Option Finding :=
  match (cmts.map commentCount).dedup with
  | [] => none
  | [count] =>
    if cmts.length ≠ count then
      some (.mismatchedCounts label count cmts.length)
    else none
  | _ :: _ :: _ => some (.inconsistentCounts label)

/-- Embedding of `Emitter` (src/main.rs): the findings emitted so far (in
emission order) and the sticky `has_errors` flag. -/
structure Emitter where
  emitted : List Finding
  hasErrors : Bool
deriving DecidableEq

/-- Embedding of `Emitter::emit` (src/main.rs): records the finding and
sets `has_errors`. -/
def emit (e : Emitter) (f : Finding) : Emitter :=
  ⟨e.emitted ++ [f], true⟩

/-- A report pass that emits each of its findings in order (each `report_*`
method of `Checker` calls `emit` once per finding it discovers). -/
def emitList (e : Emitter) (fs : List Finding) : Emitter :=
  fs.foldl emit e

/-- Embedding of `Emitter::abort_if_errors` (src/main.rs): if any finding
has been emitted the process exits, which we model by an exceptional
return of everything emitted so far. -/
def abortIfErrors (e : Emitter) : Except (List Finding) Emitter :=
  if e.hasErrors then .error e.emitted else .ok e

/-- Embedding of `Checker::check` (src/main.rs), parameterized by the
findings each report pass discovers: invalid-match findings, then
`abort_if_errors`; count findings, then `abort_if_errors`; casing
findings, then `abort_if_errors`; pattern findings, then whitespace
findings, then `abort_if_errors`.  The result is the list of findings
emitted before the run ends (normally or by abort). -/
def check (inv cnt cas pat ws : List Finding) : List Finding :=
  match abortIfErrors (emitList ⟨[], false⟩ inv) with
  | .error fs => fs
  | .ok e =>
    match abortIfErrors (emitList e cnt) with
    | .error fs => fs
    | .ok e =>
      match abortIfErrors (emitList e cas) with
      | .error fs => fs
      | .ok e =>
        match abortIfErrors (emitList (emitList e pat) ws) with
        | .error fs => fs
        | .ok e => e.emitted

/-! ## src/inflector/case/mod.rs: shared case-conversion core -/

/-- Rust `char::is_alphanumeric` modelled for the ASCII range
(`is_not_alphanumeric` is its negation). -/
def rustIsAlphanumeric (c : Char) : Bool :=
  c.isAlphanum

/-- Embedding of `char_is_separator` (src/inflector/case/mod.rs). -/
def charIsSeparator (c : Char) : Bool :=
  !rustIsAlphanumeric c

/-- Embedding of `trim_right` (src/inflector/case/mod.rs):
`trim_end_matches(is_not_alphanumeric)`. -/
def trimRightNonAlnum (s : List Char) : List Char :=
  (s.reverse.dropWhile (fun c => !rustIsAlphanumeric c)).reverse

/-- Embedding of `next_or_previous_char_is_lowercase`
(src/inflector/case/mod.rs): `chars().nth(i + 1)` and `chars().nth(i - 1)`
with default `'A'`; at `i = 0` the index `i - 1` wraps around, so `nth`
yields no character and the default `'A'` (not lowercase) is used. -/
def nextOrPreviousCharIsLowercase (s : List Char) (i : Nat) : Bool :=
  ((s.getD (i + 1) 'A').isLower) ||
    (if i = 0 then false else (s.getD (i - 1) 'A').isLower)

/-- Embedding of `requires_separator` (src/inflector/case/mod.rs). -/
def requiresSeparator (s : List Char) (i : Nat) (c : Char)
    (firstCharacter : Bool) : Bool :=
  !firstCharacter && c.isUpper && nextOrPreviousCharIsLowercase s i

/-- Embedding of the loop of `to_case_snake_like`
(src/inflector/case/mod.rs), processing the `char_indices` of the trimmed
string (`enum` below) with the state flag `first_character`; index lookups
for `requires_separator` go to the original string `orig`.  A separator
character emits one `replace_with` character if `first_character` is false
and sets the flag; `requires_separator` emits the separator plus the cased
character; otherwise the cased character alone is emitted (`upper` selects
`to_ascii_uppercase` versus `to_ascii_lowercase`, from the `case`
string). -/
def snakeGo (orig : List Char) (replaceWith : Char) (upper : Bool) :
    List (Nat × Char) → Bool → List Char
  | [], _ => []
  | (i, c) :: rest, firstCharacter =>
    if charIsSeparator c then
      if !firstCharacter then
        replaceWith :: snakeGo orig replaceWith upper rest true
      else
        snakeGo orig replaceWith upper rest true
    else if requiresSeparator orig i c firstCharacter then
      replaceWith :: (if upper then c.toUpper else c.toLower) ::
        snakeGo orig replaceWith upper rest false
    else
      (if upper then c.toUpper else c.toLower) ::
        snakeGo orig replaceWith upper rest false

/-- Embedding of `to_case_snake_like` (src/inflector/case/mod.rs). -/
def toCaseSnakeLike (s : List Char) (replaceWith : Char) (upper : Bool) :
    List Char :=
  snakeGo s replaceWith upper (trimRightNonAlnum s).enum true

/-- Embedding of `CamelOptions` (src/inflector/case/mod.rs). -/
structure CamelOptions where
  newWord : Bool
  lastChar : Char
  firstWord : Bool
  injectableChar : Char
  hasSeparator : Bool
  inverted : Bool

/-- Embedding of `append_on_new_word` (src/inflector/case/mod.rs). -/
def appendOnNewWord (firstWord : Bool) (c : Char) (opts : CamelOptions) :
    List Char :=
  (if opts.hasSeparator && !firstWord then [opts.injectableChar] else []) ++
    [if !opts.inverted || firstWord then c.toUpper else c.toLower]

/-- Embedding of `last_char_lower_current_is_upper_or_new_word`
(src/inflector/case/mod.rs). -/
def lastCharLowerCurrentIsUpperOrNewWord (newWord : Bool) (lastChar c : Char) :
    Bool :=
  newWord || (lastChar.isLower && c.isUpper && lastChar ≠ ' ')

/-- Embedding of the loop of `to_case_camel_like`
(src/inflector/case/mod.rs) over the trimmed string, with the four mutable
state variables `new_word`, `first_word`, `last_char`, `found_real_char`.
A separator after a real character starts a new word; non-alphanumeric
characters before the first real character are skipped; a new word (or a
lower-to-upper transition) appends via `append_on_new_word` (which leaves
`last_char` unchanged); otherwise the lowercased character is appended and
`last_char` updated. -/
def camelGo (opts : CamelOptions) :
    List Char → Bool → Bool → Char → Bool → List Char
  | [], _, _, _, _ => []
  | c :: rest, newWord, firstWord, lastChar, foundRealChar =>
    if charIsSeparator c && foundRealChar then
      camelGo opts rest true firstWord lastChar foundRealChar
    else if !foundRealChar && !rustIsAlphanumeric c then
      camelGo opts rest newWord firstWord lastChar foundRealChar
    else if lastCharLowerCurrentIsUpperOrNewWord newWord lastChar c then
      appendOnNewWord firstWord c opts ++ camelGo opts rest false false lastChar true
    else
      c.toLower :: camelGo opts rest newWord firstWord c true

/-- Case-insensitive character comparison, as the `regex` crate's `(?i)`
flag folds ASCII letters. -/
def ciCharEq (a b : Char) : Bool :=
  a.toLower = b.toLower

/-- Whether `pat` matches at the start of `s`, case-insensitively. -/
def ciIsPrefix : List Char → List Char → Bool
  | [], _ => true
  | _ :: _, [] => false
  | p :: ps, c :: cs => ciCharEq p c && ciIsPrefix ps cs

/-- Smallest index of `s` at which `pat` matches case-insensitively, the
leftmost-match rule of `Regex::replace_all` for pattern `(?i)(pat)`. -/
def findCi (pat : List Char) : List Char → Option Nat
  | [] => if pat.isEmpty then some 0 else none
  | s@(_ :: cs) =>
    if ciIsPrefix pat s then some 0
    else (findCi pat cs).map (· + 1)

/-- Loop of `Regex::replace_all` for the pattern `(?i)(acronym)(?-i)` with
replacement `matched.to_uppercase()` (`capitalize_acronym_substrings`,
src/inflector/case/mod.rs): repeatedly find the leftmost remaining
case-insensitive occurrence, uppercase the matched raw text, and continue
after it (non-overlapping).  Each step consumes at least one character, so
`s.length` fuel always suffices for a nonempty pattern. -/
def replaceAllGo (pat : List Char) : Nat → List Char → List Char
  | 0, s => s
  | fuel + 1, s =>
    match findCi pat s with
    | none => s
    | some i =>
      s.take i ++ ((s.drop i).take pat.length).map Char.toUpper ++
        replaceAllGo pat fuel (s.drop (i + pat.length))

/-- `Regex::replace_all` for one acronym: an empty acronym matches only
empty text, whose uppercase replacement leaves the string unchanged. -/
def replaceAllCiUpper (pat s : List Char) : List Char :=
  if pat.isEmpty then s else replaceAllGo pat s.length s

/-- Embedding of `capitalize_acronym_substrings`
(src/inflector/case/mod.rs): fold the rewrite over the acronym set (the
`HashSet` iteration is modelled by a list of acronyms). -/
def capitalizeAcronymSubstrings (s : List Char)
    (acronyms : List (List Char)) : List Char :=
  acronyms.foldl (fun acc a => replaceAllCiUpper a acc) s

/-- Embedding of `to_case_camel_like` (src/inflector/case/mod.rs): run the
camel loop from the options' initial state, then apply the acronym
rewrite. -/
def toCaseCamelLike (s : List Char) (opts : CamelOptions)
    (acronyms : List (List Char)) : List Char :=
  capitalizeAcronymSubstrings
    (camelGo opts (trimRightNonAlnum s) opts.newWord opts.firstWord
      opts.lastChar false)
    acronyms

/-! ## src/inflector/case/camel.rs and screaming_snake.rs -/

/-- Embedding of `to_camel_case` (src/inflector/case/camel.rs) with its
`CamelOptions`. -/
def toCamelCase (s : List Char) (acronyms : List (List Char)) : List Char :=
  toCaseCamelLike s ⟨false, ' ', false, ' ', false, false⟩ acronyms

/-- Embedding of `is_camel_case` (src/inflector/case/camel.rs):
`to_camel_case(s, {}) == s`. -/
def isCamelCase (s : List Char) : Bool :=
  toCamelCase s [] = s

/-- Embedding of `to_screaming_snake_case`
(src/inflector/case/screaming_snake.rs):
`to_case_snake_like(s, "_", "upper")`. -/
def toScreamingSnakeCase (s : List Char) : List Char :=
  toCaseSnakeLike s '_' true

/-- Embedding of `is_screaming_snake_case`
(src/inflector/case/screaming_snake.rs):
`s == to_screaming_snake_case(s)`. -/
def isScreamingSnakeCase (s : List Char) : Bool :=
  s = toScreamingSnakeCase s

/-! ## Sample data used by witnesses -/

/-- A concrete well-formed argument list with the given optional count,
used to build sample comments. -/
def sampleArgs (c : Option Nat) : Args :=
  ⟨⟨['a'], ['a'], 9, 10⟩, c.map (fun v => ⟨v, ['9'], 12, 13⟩), 6⟩

/-- A concrete valid comment with the given optional stated count. -/
def sampleComment (c : Option Nat) : Comment :=
  ⟨sampleArgs c, ['f'], ⟨.ok (sampleArgs c), 8⟩⟩

/-- A concrete file with one valid match stating count 2. -/
def sampleFileA : FileMatches :=
  ⟨['A'], [⟨.ok (sampleArgs (some 2)), 0⟩]⟩

/-- A concrete file with one valid match stating no count. -/
def sampleFileB : FileMatches :=
  ⟨['B'], [⟨.ok (sampleArgs none), 5⟩]⟩

/-! ## Claims -/

/-- A nonempty list all of whose elements equal `N` dedups to `[N]`. -/
theorem dedup_eq_singleton_of_all {l : List Nat} {N : Nat} (hne : l ≠ [])
    (hall : ∀ x ∈ l, x = N) : l.dedup = [N] := by
  induction l with
  | nil => exact absurd rfl hne
  | cons a t ih =>
    rcases eq_or_ne t [] with rfl | ht
    · have : a = N := hall a (by simp)
      simp [this]
    · have ha : a = N := hall a (by simp)
      have hat : a ∈ t := by
        obtain ⟨b, hb⟩ := List.exists_mem_of_ne_nil t ht
        have : b = N := hall b (by simp [hb])
        rw [ha, ← this]; exact hb
      rw [List.dedup_cons_of_mem hat]
      exact ih ht (fun x hx => hall x (by simp [hx]))

/-- C1: for every label group of valid comments (absent counts defaulting
to 2): an empty group produces no count finding; if all stated counts
collapse to the single value `N`, a finding is produced iff the group's
size differs from `N`; if two members state different counts, a finding is
always produced. -/
theorem C1_count_consistency_findings (label : List Char)
    (cmts : List Comment) :
    (cmts = [] → reportIncorrectCounts label cmts = none) ∧
    (∀ N, cmts ≠ [] → (∀ c ∈ cmts, commentCount c = N) →
      (reportIncorrectCounts label cmts = none ↔ cmts.length = N)) ∧
    (∀ c₁ ∈ cmts, ∀ c₂ ∈ cmts, commentCount c₁ ≠ commentCount c₂ →
      reportIncorrectCounts label cmts ≠ none) := by
  refine ⟨fun h => by subst h; rfl, fun N hne hall => ?_, fun c₁ h₁ c₂ h₂ hne => ?_⟩
  · have hded : (cmts.map commentCount).dedup = [N] :=
      dedup_eq_singleton_of_all (by simpa using hne)
        (fun x hx => by
          obtain ⟨c, hc, rfl⟩ := List.mem_map.mp hx
          exact hall c hc)
    simp only [reportIncorrectCounts, hded]
    constructor
    · intro h
      by_contra hlen
      simp [hlen] at h
    · intro h; simp [h]
  · have h₁m : commentCount c₁ ∈ (cmts.map commentCount).dedup :=
      List.mem_dedup.mpr (List.mem_map_of_mem _ h₁)
    have h₂m : commentCount c₂ ∈ (cmts.map commentCount).dedup :=
      List.mem_dedup.mpr (List.mem_map_of_mem _ h₂)
    rcases hd : (cmts.map commentCount).dedup with _ | ⟨x, _ | ⟨y, t⟩⟩
    · rw [hd] at h₁m; exact absurd h₁m (by simp)
    · rw [hd] at h₁m h₂m
      simp only [List.mem_singleton] at h₁m h₂m
      exact absurd (h₁m.trans h₂m.symm) hne
    · simp [reportIncorrectCounts, hd]

/-- Witness for C1 at concrete groups: the empty group, a group of two
comments both stating count 2, and a group with disagreeing counts 2
and 3. -/
theorem C1_witness :
    reportIncorrectCounts ['a'] [] = none ∧
    (reportIncorrectCounts ['a'] [sampleComment (some 2), sampleComment (some 2)] = none ↔
      ([sampleComment (some 2), sampleComment (some 2)] : List Comment).length = 2) ∧
    reportIncorrectCounts ['a'] [sampleComment (some 2), sampleComment (some 3)] ≠ none :=
  ⟨(C1_count_consistency_findings ['a'] []).1 rfl,
   (C1_count_consistency_findings ['a'] _).2.1 2 (by decide) (by decide),
   (C1_count_consistency_findings ['a'] _).2.2
     (sampleComment (some 2)) (by decide) (sampleComment (some 3)) (by decide)
     (by decide)⟩

/-- C2: the claim asserts `kmp::search` finds the first occurrence of any
needle, in particular the self-overlapping needle `"AAB"` inside `"AAAB"`
at offset 1.  The failure table for `"AAB"` is correctly `[0, 1, 0]`, yet
the search loop, which advances the haystack pointer even when resuming
through the table and treats `result_idx == 0` as "unset", returns `none`
on `"AAAB"` (bytes `[65, 65, 65, 66]`) although `"AAB"` (`[65, 65, 66]`)
occurs there at offset 1. -/
theorem C2_kmp_search_misses_overlapping_occurrence :
    table [65, 65, 66] = [0, 1, 0] ∧
    (List.drop 1 [65, 65, 65, 66]).take 3 = ([65, 65, 66] : List Nat) ∧
    search [65, 65, 65, 66] [65, 65, 66] (table [65, 65, 66]) = none := by
  decide

/-- C3 counterexample: for the camel style and the ASCII input `"a1_bc"`,
`to_camel_case` yields `"a1Bc"`, but converting that output again yields
`"a1bc"` (the digit before the hump erases the word boundary), so
`is_camel_case(to_camel_case("a1_bc"))` is `false` and the claim fails as
stated. -/
theorem C3_counterexample :
    toCamelCase ['a', '1', '_', 'b', 'c'] [] = ['a', '1', 'B', 'c'] ∧
    toCamelCase ['a', '1', 'B', 'c'] [] = ['a', '1', 'b', 'c'] ∧
    isCamelCase (toCamelCase ['a', '1', '_', 'b', 'c'] []) = false := by
  decide

/-- C4 counterexample: with no invalid-match and no count findings, one
casing finding and one whitespace finding, `Checker::check` aborts right
after the casing pass, so the whitespace finding is never emitted — a
casing violation does suppress whitespace (and pattern) findings,
contradicting the claim. -/
theorem C4_counterexample :
    check [] [] [Finding.invalidCase ['a']] []
        [Finding.extraWhitespace ['f'] 0 1] = [Finding.invalidCase ['a']] ∧
    Finding.extraWhitespace ['f'] 0 1 ∉
      check [] [] [Finding.invalidCase ['a']] []
        [Finding.extraWhitespace ['f'] 0 1] := by
  decide

/-- C5 counterexample: the text `"(a,+3)"` matches the structural shape
and its second argument `"+3"` is not all-digits, yet parsing succeeds
with count 3 (Rust's `u16` parsing accepts a leading `+` sign) instead of
returning `InvalidCount`. -/
theorem C5_counterexample :
    parseArgs 0 ['(', 'a', ',', '+', '3', ')'] =
      .ok ⟨⟨['a'], ['a'], 1, 2⟩, some ⟨3, ['+', '3'], 3, 5⟩, 6⟩ := by
  decide

/-- C6 counterexample: the empty label `L = ""` contains no `,` and no
`)`, but parsing `"()"` yields `Malformed` rather than `Ok` with an empty
label (the regex requires at least one label character). -/
theorem C6_counterexample :
    ¬ ∃ a : Args, parseArgs 0 ['(', ')'] = .ok a := by
  intro ⟨a, h⟩
  rw [show parseArgs 0 ['(', ')'] = .error .malformed from by decide] at h
  exact absurd h (by simp)

/-- C7 counterexample: parsing succeeds on `"( )"` — the all-whitespace
label argument matches the regex — and the stored label is empty after
trimming, so a successful parse can carry an empty label. -/
theorem C7_counterexample :
    ∃ a : Args, parseArgs 0 ['(', ' ', ')'] = .ok a ∧ a.label.val = [] :=
  ⟨⟨⟨[], [' '], 1, 2⟩, none, 3⟩, by decide, by decide⟩

/-- C8 counterexample: converting `"aaa"` to camel case with acronym set
`{"aa"}` produces the cased output `"aaa"`, in which `"aa"` occurs
case-insensitively at offsets 0 and 1; the rewrite is a non-overlapping
leftmost scan, so the result is `"AAa"` and the occurrence at offset 1
(`"Aa"`) is not rewritten to uppercase, contradicting "every
case-insensitive occurrence is rewritten". -/
theorem C8_counterexample :
    toCamelCase ['a', 'a', 'a'] [] = ['a', 'a', 'a'] ∧
    ciIsPrefix ['a', 'a'] (List.drop 1 (toCamelCase ['a', 'a', 'a'] [])) = true ∧
    toCamelCase ['a', 'a', 'a'] [['a', 'a']] = ['A', 'A', 'a'] ∧
    ((toCamelCase ['a', 'a', 'a'] [['a', 'a']]).drop 1).take 2 ≠ ['A', 'A'] := by
  decide

/-- Emitting a list of findings appends them and sets `has_errors` exactly
when the list is nonempty. -/
theorem emitList_eq (es : List Finding) (b : Bool) (fs : List Finding) :
    emitList ⟨es, b⟩ fs = ⟨es ++ fs, if fs.isEmpty then b else true⟩ := by
  induction fs generalizing es b with
  | nil => simp [emitList]
  | cons f t ih =>
    simp only [emitList, List.foldl_cons] at ih ⊢
    rw [show emit ⟨es, b⟩ f = ⟨es ++ [f], true⟩ from rfl, ih]
    simp

/-- C4 amended: the gating of `Checker::check` as the code performs it:
invalid-match findings gate everything after them; count findings gate
everything after them; casing findings likewise gate the pattern and
whitespace checks (an abort runs right after the casing pass); only the
pattern and whitespace passes run together, both sets of findings being
emitted before the final gate. -/
theorem C4_amended_check_order (inv cnt cas pat ws : List Finding) :
    (inv ≠ [] → check inv cnt cas pat ws = inv) ∧
    (inv = [] → cnt ≠ [] → check inv cnt cas pat ws = cnt) ∧
    (inv = [] → cnt = [] → cas ≠ [] → check inv cnt cas pat ws = cas) ∧
    (inv = [] → cnt = [] → cas = [] → check inv cnt cas pat ws = pat ++ ws) := by
  refine ⟨fun h1 => ?_, fun h1 h2 => ?_, fun h1 h2 h3 => ?_, fun h1 h2 h3 => ?_⟩
  · cases inv with
    | nil => exact absurd rfl h1
    | cons a t => simp [check, emitList_eq, abortIfErrors]
  · subst h1
    cases cnt with
    | nil => exact absurd rfl h2
    | cons a t => simp [check, emitList_eq, abortIfErrors]
  · subst h1; subst h2
    cases cas with
    | nil => exact absurd rfl h3
    | cons a t => simp [check, emitList_eq, abortIfErrors]
  · subst h1; subst h2; subst h3
    cases pat with
    | nil =>
      cases ws with
      | nil => simp [check, emitList_eq, abortIfErrors]
      | cons a t => simp [check, emitList_eq, abortIfErrors]
    | cons a t => simp [check, emitList_eq, abortIfErrors]

/-- Witness for C4 at concrete finding lists, exercising all four gates. -/
theorem C4_witness :
    check [Finding.inconsistentCounts ['z']] [Finding.invalidCase ['b']] [] [] [] =
      [Finding.inconsistentCounts ['z']] ∧
    check [] [Finding.inconsistentCounts ['z']] [Finding.invalidCase ['b']] [] [] =
      [Finding.inconsistentCounts ['z']] ∧
    check [] [] [Finding.invalidCase ['b']] [Finding.regexMismatch ['b']] [] =
      [Finding.invalidCase ['b']] ∧
    check [] [] [] [Finding.regexMismatch ['b']] [Finding.extraWhitespace ['f'] 2 3] =
      [Finding.regexMismatch ['b'], Finding.extraWhitespace ['f'] 2 3] :=
  ⟨(C4_amended_check_order _ _ _ _ _).1 (by decide),
   (C4_amended_check_order _ _ _ _ _).2.1 rfl (by decide),
   (C4_amended_check_order _ _ _ _ _).2.2.1 rfl rfl (by decide),
   (C4_amended_check_order _ _ _ _ _).2.2.2 rfl rfl rfl⟩

/-- One file's matches are partitioned by `to_comment`/`to_invalid`: the
comments' underlying matches together with the invalid matches' underlying
matches are a permutation of all matches. -/
theorem filterMap_partition (p : List Char) (l : List MatchT) :
    ((l.filterMap (toComment p)).map Comment.m ++
      (l.filterMap (toInvalid p)).map InvalidMatch.m).Perm l := by
  induction l with
  | nil => simp
  | cons m t ih =>
    rcases hm : m.args with e | a
    · have hc : toComment p m = none := by simp [toComment, hm]
      have hi : toInvalid p m = some ⟨e, p, m⟩ := by simp [toInvalid, hm]
      simp only [List.filterMap_cons, hc, hi, List.map_cons]
      exact (List.perm_middle).trans (ih.cons m)
    · have hc : toComment p m = some ⟨a, p, m⟩ := by simp [toComment, hm]
      have hi : toInvalid p m = none := by simp [toInvalid, hm]
      simp only [List.filterMap_cons, hc, hi, List.map_cons, List.cons_append]
      exact ih.cons m

/-- C10: the iterators `Matches::comments` and `Matches::invalid_matches`
partition the collected matches: every match is yielded exactly once, by
`comments` when its `args` is `Ok` and by `invalid_matches` when its
`args` is `Err` — together (with multiplicity) they are a permutation of
all matches. -/
theorem C10_partition (ms : Matches) :
    (((comments ms).map Comment.m ++
        (invalidMatches ms).map InvalidMatch.m).Perm
      (ms.flatMap FileMatches.matches_)) ∧
    (∀ c ∈ comments ms, ∃ a : Args, c.m.args = .ok a) ∧
    (∀ im ∈ invalidMatches ms, ∃ e : ArgsError, im.m.args = .error e) := by
  refine ⟨?_, ?_, ?_⟩
  · induction ms with
    | nil => simp [comments, invalidMatches]
    | cons f t ih =>
      simp only [comments, invalidMatches, List.flatMap_cons, List.map_append] at ih ⊢
      have shuffle :
          ∀ (a b c d : List MatchT), ((a ++ b) ++ (c ++ d)).Perm ((a ++ c) ++ (b ++ d)) := by
        intro a b c d
        have h1 : ((b ++ c) ++ d).Perm ((c ++ b) ++ d) :=
          (List.perm_append_comm : (b ++ c).Perm (c ++ b)).append_right d
        have h2 : (b ++ (c ++ d)).Perm (c ++ (b ++ d)) := by
          simpa using h1
        have h3 : (a ++ (b ++ (c ++ d))).Perm (a ++ (c ++ (b ++ d))) :=
          h2.append_left a
        simpa using h3
      exact ((shuffle _ _ _ _).trans
        ((filterMap_partition f.path f.matches_).append ih))
  · intro c hc
    simp only [comments, List.mem_flatMap, List.mem_filterMap] at hc
    obtain ⟨f, _, m, _, hm⟩ := hc
    rcases ha : m.args with e | a
    · simp [toComment, ha] at hm
    · refine ⟨a, ?_⟩
      simp only [toComment, ha] at hm
      cases hm
      exact ha
  · intro im him
    simp only [invalidMatches, List.mem_flatMap, List.mem_filterMap] at him
    obtain ⟨f, _, m, _, hm⟩ := him
    rcases ha : m.args with e | a
    · refine ⟨e, ?_⟩
      simp only [toInvalid, ha] at hm
      cases hm
      exact ha
    · simp [toInvalid, ha] at hm

/-- The count-consistency decision for a group depends only on the group
up to permutation. -/
theorem reportIncorrectCounts_perm (label : List Char) {g₁ g₂ : List Comment}
    (h : g₁.Perm g₂) :
    reportIncorrectCounts label g₁ = reportIncorrectCounts label g₂ := by
  have hc : (g₁.map commentCount).Perm (g₂.map commentCount) := h.map commentCount
  have hd : (g₁.map commentCount).dedup.Perm (g₂.map commentCount).dedup := hc.dedup
  have hl : g₁.length = g₂.length := h.length_eq
  rcases h1 : (g₁.map commentCount).dedup with _ | ⟨x, _ | ⟨y, t⟩⟩
  · rw [h1] at hd
    have h2 : (g₂.map commentCount).dedup = [] := hd.symm.eq_nil
    simp [reportIncorrectCounts, h1, h2]
  · rw [h1] at hd
    have h2 : (g₂.map commentCount).dedup = [x] := List.perm_singleton.mp hd.symm
    simp [reportIncorrectCounts, h1, h2, hl]
  · rw [h1] at hd
    have h2len : 2 ≤ (g₂.map commentCount).dedup.length := by
      have hle := hd.length_eq
      simp only [List.length_cons] at hle
      omega
    rcases h2 : (g₂.map commentCount).dedup with _ | ⟨a, _ | ⟨b, t2⟩⟩
    · rw [h2] at h2len; simp at h2len
    · rw [h2] at h2len; simp at h2len
    · simp [reportIncorrectCounts, h1, h2]

/-- C9: cross-file aggregation is independent of traversal order: for any
permutation of the collected files, every label's group is the same up to
permutation (same labels, same multiset of comments) and the
count-consistency check makes the same decision for every label. -/
theorem C9_order_independent (ms₁ ms₂ : Matches) (h : List.Perm ms₁ ms₂) :
    (∀ label, (groupByLabel ms₁ label).Perm (groupByLabel ms₂ label)) ∧
    (∀ label, reportIncorrectCounts label (groupByLabel ms₁ label) =
      reportIncorrectCounts label (groupByLabel ms₂ label)) := by
  have hcm : (comments ms₁).Perm (comments ms₂) := by
    simp only [comments]
    exact List.Perm.flatMap_right _ h
  have hg : ∀ label, (groupByLabel ms₁ label).Perm (groupByLabel ms₂ label) := by
    intro label
    simp only [groupByLabel]
    exact hcm.filter _
  exact ⟨hg, fun label => reportIncorrectCounts_perm label (hg label)⟩

/-- Witness for C9 on a concrete two-file collection and its swap. -/
theorem C9_witness :
    (groupByLabel [sampleFileA, sampleFileB] ['a']).Perm
      (groupByLabel [sampleFileB, sampleFileA] ['a']) ∧
    reportIncorrectCounts ['a'] (groupByLabel [sampleFileA, sampleFileB] ['a']) =
      reportIncorrectCounts ['a'] (groupByLabel [sampleFileB, sampleFileA] ['a']) :=
  ⟨(C9_order_independent _ _ (List.Perm.swap sampleFileB sampleFileA [])).1 ['a'],
   (C9_order_independent _ _ (List.Perm.swap sampleFileB sampleFileA [])).2 ['a']⟩

/-- `takeWhile` over a list whose prefix all satisfies the predicate and
whose next element fails it returns exactly that prefix. -/
theorem takeWhile_append_all {α : Type} (p : α → Bool) (L : List α) (a : α)
    (rest : List α) (hL : ∀ c ∈ L, p c = true) (ha : p a = false) :
    (L ++ a :: rest).takeWhile p = L := by
  induction L with
  | nil => simp [List.takeWhile_cons, ha]
  | cons x t ih =>
    have hx : p x = true := hL x (by simp)
    simp [List.takeWhile_cons, hx, ih (fun c hc => hL c (by simp [hc]))]

/-- `dropWhile` leaves a list unchanged when its head fails the
predicate. -/
theorem dropWhile_eq_self_of_head {p : Char → Bool} {l : List Char}
    (h : ∀ c, l.head? = some c → p c = false) : l.dropWhile p = l := by
  cases l with
  | nil => rfl
  | cons a t =>
    rw [List.dropWhile_cons, if_neg]
    simp [h a rfl]

/-- ASCII digits are not whitespace. -/
theorem isDigit_not_whitespace {c : Char} (h : c.isDigit = true) :
    rustIsWhitespace c = false := by
  have h1 : c ≠ ' ' := fun he => by subst he; simp at h
  have h2 : c ≠ '\t' := fun he => by subst he; simp at h
  have h3 : c ≠ '\n' := fun he => by subst he; simp at h
  have h4 : c ≠ '\x0b' := fun he => by subst he; simp at h
  have h5 : c ≠ '\x0c' := fun he => by subst he; simp at h
  have h6 : c ≠ '\r' := fun he => by subst he; simp at h
  simp [rustIsWhitespace, h1, h2, h3, h4, h5, h6]

/-- Trimming a space followed by a nonempty digit run yields the digit
run. -/
theorem trim_space_digits (D : List Char) (_hne : D ≠ [])
    (hD : ∀ c ∈ D, c.isDigit = true) : trim (' ' :: D) = D := by
  have hws : rustIsWhitespace ' ' = true := by decide
  have h1 : (' ' :: D).dropWhile rustIsWhitespace = D.dropWhile rustIsWhitespace := by
    rw [List.dropWhile_cons, if_pos hws]
  have h2 : D.dropWhile rustIsWhitespace = D :=
    dropWhile_eq_self_of_head (fun c hc =>
      isDigit_not_whitespace (hD c (List.mem_of_mem_head? hc)))
  have h3 : D.reverse.dropWhile rustIsWhitespace = D.reverse :=
    dropWhile_eq_self_of_head (fun c hc => by
      refine isDigit_not_whitespace (hD c ?_)
      exact List.mem_reverse.mp (List.mem_of_mem_head? hc))
  simp [trim, h1, h2, h3]

/-- `parseU16` succeeds on a nonempty all-digit run whose value fits. -/
theorem parseU16_digits (D : List Char) (hne : D ≠ [])
    (hD : ∀ c ∈ D, c.isDigit = true) (hv : digitsVal D < 65536) :
    parseU16 D = some (digitsVal D) := by
  rcases D with _ | ⟨d, t⟩
  · exact absurd rfl hne
  · have hd : d ≠ '+' := by
      intro he
      have := hD d (by simp)
      rw [he] at this
      simp at this
    simp only [digitsVal, List.foldl_cons] at hv
    simp [parseU16, hd, hD, digitsVal]
    exact ⟨fun x hx => hD x (List.mem_cons_of_mem d hx), by simpa using hv⟩

/-- The regex captures on `"(" ++ L ++ ")" ++ rest` for a nonempty label
`L` free of `,` and `)`. -/
theorem regexCaptures_one_arg (L rest : List Char) (hne : L ≠ [])
    (hL : ∀ c ∈ L, c ≠ ',' ∧ c ≠ ')') :
    regexCaptures ('(' :: (L ++ ')' :: rest)) =
      some (L, none, 1 + utf8Len L + 1) := by
  have h1 : (L ++ ')' :: rest).takeWhile labelCharOk = L :=
    takeWhile_append_all _ L ')' rest
      (fun c hc => by simp [labelCharOk, (hL c hc).1, (hL c hc).2]) (by decide)
  have h2 : (L ++ ')' :: rest).drop L.length = ')' :: rest := List.drop_left L _
  have h3 : L.isEmpty = false := by
    cases L with
    | nil => exact absurd rfl hne
    | cons a t => rfl
  simp only [regexCaptures, h1, h2, h3]
  rfl

/-- The regex captures on `"(" ++ L ++ "," ++ C ++ ")" ++ rest` for a
nonempty label `L` free of `,` and `)` and a count text `C` free of
`)`. -/
theorem regexCaptures_two_args (L C rest : List Char) (hne : L ≠ [])
    (hL : ∀ c ∈ L, c ≠ ',' ∧ c ≠ ')') (hC : ∀ c ∈ C, c ≠ ')') :
    regexCaptures ('(' :: (L ++ ',' :: (C ++ ')' :: rest))) =
      some (L, some C, 1 + utf8Len L + 1 + utf8Len C + 1) := by
  have h1 : (L ++ ',' :: (C ++ ')' :: rest)).takeWhile labelCharOk = L :=
    takeWhile_append_all _ L ',' _
      (fun c hc => by simp [labelCharOk, (hL c hc).1, (hL c hc).2]) (by decide)
  have h2 : (L ++ ',' :: (C ++ ')' :: rest)).drop L.length =
      ',' :: (C ++ ')' :: rest) := List.drop_left L _
  have h3 : L.isEmpty = false := by
    cases L with
    | nil => exact absurd rfl hne
    | cons a t => rfl
  have h4 : (C ++ ')' :: rest).takeWhile countCharOk = C :=
    takeWhile_append_all _ C ')' rest
      (fun c hc => by simp [countCharOk, hC c hc]) (by decide)
  have h5 : (C ++ ')' :: rest).drop C.length = ')' :: rest := List.drop_left C _
  simp only [regexCaptures, h1, h2, h3, h4, h5]
  rfl

/-- C5 amended: whenever the text after the marker structurally matches
the `(label, count)` shape but the second argument does not parse as an
unsigned 16-bit integer after trimming (Rust's parser accepts an optional
leading `+` before the digits, so "not all-digits" alone is not enough),
parsing returns `InvalidCount` whose span exactly covers the second
argument's raw matched text, as absolute byte offsets in the file. -/
theorem C5_amended_invalid_count_span (off : Nat) (L C rest : List Char)
    (hne : L ≠ []) (hL : ∀ c ∈ L, c ≠ ',' ∧ c ≠ ')')
    (hC : ∀ c ∈ C, c ≠ ')') (hbad : parseU16 (trim C) = none) :
    parseArgs off ('(' :: (L ++ ',' :: (C ++ ')' :: rest))) =
      .error (.invalidCount (off + 1 + utf8Len L + 1)
        (off + 1 + utf8Len L + 1 + utf8Len C)) := by
  simp [parseArgs, regexCaptures_two_args L C rest hne hL hC, hbad]

/-- Witness for C5 at the concrete input `"(a,x)"` at byte offset 5: the
second argument `"x"` spans absolute bytes 8..9. -/
theorem C5_amended_witness :
    parseArgs 5 ['(', 'a', ',', 'x', ')'] =
      .error (.invalidCount 8 9) := by
  have h := C5_amended_invalid_count_span 5 ['a'] ['x'] []
    (by decide) (by decide) (by decide) (by decide)
  simpa using h

/-- C6 amended: for any nonempty label `L` containing no `,` and no `)`
(the regex requires at least one label character, so the empty label does
not parse) and any digit run `D` whose value fits in 16 bits: parsing
`"(L)"` yields `Ok` with the trimmed label and no count, and parsing
`"(L, D)"` yields `Ok` with the trimmed label and the count's value. -/
theorem C6_amended_roundtrip (off : Nat) (L D rest : List Char)
    (hne : L ≠ []) (hL : ∀ c ∈ L, c ≠ ',' ∧ c ≠ ')')
    (hDne : D ≠ []) (hD : ∀ c ∈ D, c.isDigit = true)
    (hv : digitsVal D < 65536) :
    parseArgs off ('(' :: (L ++ ')' :: rest)) =
      .ok ⟨⟨trim L, L, off + 1, off + 1 + utf8Len L⟩, none,
        1 + utf8Len L + 1⟩ ∧
    parseArgs off ('(' :: (L ++ ',' :: ((' ' :: D) ++ ')' :: rest))) =
      .ok ⟨⟨trim L, L, off + 1, off + 1 + utf8Len L⟩,
        some ⟨digitsVal D, ' ' :: D, off + 1 + utf8Len L + 1,
          off + 1 + utf8Len L + 1 + utf8Len (' ' :: D)⟩,
        1 + utf8Len L + 1 + utf8Len (' ' :: D) + 1⟩ := by
  constructor
  · simp [parseArgs, regexCaptures_one_arg L rest hne hL]
  · have hC : ∀ c ∈ (' ' :: D), c ≠ ')' := by
      intro c hc
      rcases List.mem_cons.mp hc with rfl | hc
      · decide
      · intro he
        have := hD c hc
        rw [he] at this
        simp at this
    have hp : parseU16 (trim (' ' :: D)) = some (digitsVal D) := by
      rw [trim_space_digits D hDne hD]
      exact parseU16_digits D hDne hD hv
    have hcap := regexCaptures_two_args L (' ' :: D) rest hne hL hC
    simp only [List.cons_append] at hcap
    simp [parseArgs, hcap, hp]

/-- Witness for C6 at the concrete label `"a b"` (trimming is visible on
`"( a b )"`-like inputs only through `val`; here `val = L` itself) and
count text `"12"`. -/
theorem C6_amended_witness :
    parseArgs 0 ['(', 'a', ')'] =
      .ok ⟨⟨['a'], ['a'], 1, 2⟩, none, 3⟩ ∧
    parseArgs 0 ['(', 'a', ',', ' ', '1', '2', ')'] =
      .ok ⟨⟨['a'], ['a'], 1, 2⟩, some ⟨12, [' ', '1', '2'], 3, 6⟩, 7⟩ := by
  have h := C6_amended_roundtrip 0 ['a'] ['1', '2'] []
    (by decide) (by decide) (by decide) (by decide) (by decide)
  exact ⟨h.1.trans (by decide), h.2.trans (by decide)⟩

/-- A successful run of the capture regex has a nonempty first group: the
`+` quantifier demands at least one label character. -/
theorem regexCaptures_g1_ne_nil {h g1 : List Char}
    {g2 : Option (List Char)} {len : Nat}
    (hc : regexCaptures h = some (g1, g2, len)) : g1 ≠ [] := by
  cases h with
  | nil => simp [regexCaptures] at hc
  | cons c rest =>
    simp only [regexCaptures] at hc
    split at hc
    · next heq =>
      injection heq with heq1 heq2
      subst heq2
      by_cases he : (rest.takeWhile labelCharOk).isEmpty
      · rw [if_pos he] at hc
        exact absurd hc (by simp)
      · rw [if_neg he] at hc
        have hg1 : g1 = rest.takeWhile labelCharOk := by
          split at hc
          · exact (Option.some.inj hc ▸ rfl :
              (g1, g2, len).1 = rest.takeWhile labelCharOk)
          · split at hc
            · exact (Option.some.inj hc ▸ rfl :
                (g1, g2, len).1 = rest.takeWhile labelCharOk)
            · exact absurd hc (by simp)
          · exact absurd hc (by simp)
        subst hg1
        intro hnil
        rw [hnil] at he
        exact he rfl
    · exact absurd hc (by simp)

/-- C7 amended: whenever parsing succeeds the stored label's raw matched
text is nonempty; the trimmed `val`, however, can be empty (an
all-whitespace label such as `"( )"` parses successfully), and an empty
or unparsable argument list produces `ArgsError::Malformed`. -/
theorem C7_amended_raw_label_nonempty (off : Nat) (h : List Char) (a : Args)
    (hp : parseArgs off h = .ok a) : a.label.match_ ≠ [] := by
  unfold parseArgs at hp
  rcases hc : regexCaptures h with _ | ⟨g1, g2, len⟩
  · rw [hc] at hp
    exact absurd hp (by simp)
  · rw [hc] at hp
    have hg1 : g1 ≠ [] := regexCaptures_g1_ne_nil hc
    rcases g2 with _ | g2
    · have hp2 : Except.ok
          (⟨⟨trim g1, g1, off + 1, off + 1 + utf8Len g1⟩, none, len⟩ : Args) =
          Except.ok a := hp
      have ha := Except.ok.inj hp2
      rw [← ha]
      exact hg1
    · have hp2 : (match parseU16 (trim g2) with
          | none => Except.error (ArgsError.invalidCount
              (off + 1 + utf8Len g1 + 1)
              (off + 1 + utf8Len g1 + 1 + utf8Len g2))
          | some v => Except.ok
              (⟨⟨trim g1, g1, off + 1, off + 1 + utf8Len g1⟩,
                some ⟨v, g2, off + 1 + utf8Len g1 + 1,
                  off + 1 + utf8Len g1 + 1 + utf8Len g2⟩, len⟩ : Args)) =
          Except.ok a := hp
      rcases hu : parseU16 (trim g2) with _ | v
      · rw [hu] at hp2
        exact absurd hp2 (by simp)
      · rw [hu] at hp2
        have ha := Except.ok.inj hp2
        rw [← ha]
        exact hg1

/-- Witness for C7 at the concrete input `"(x)"`. -/
theorem C7_amended_witness :
    (⟨⟨['x'], ['x'], 1, 2⟩, none, 3⟩ : Args).label.match_ ≠ [] :=
  C7_amended_raw_label_nonempty 0 ['(', 'x', ')']
    ⟨⟨['x'], ['x'], 1, 2⟩, none, 3⟩ (by decide)

/-! ## Character code-point facts used for the case-converter proofs -/

theorem isLower_iff (c : Char) : c.isLower = true ↔ 97 ≤ c.toNat ∧ c.toNat ≤ 122 := by
  show (decide (c.val ≥ 97) && decide (c.val ≤ 122)) = true ↔ _
  rw [Bool.and_eq_true, decide_eq_true_iff, decide_eq_true_iff]
  rfl

theorem isUpper_iff (c : Char) : c.isUpper = true ↔ 65 ≤ c.toNat ∧ c.toNat ≤ 90 := by
  show (decide (c.val ≥ 65) && decide (c.val ≤ 90)) = true ↔ _
  rw [Bool.and_eq_true, decide_eq_true_iff, decide_eq_true_iff]
  rfl

theorem isDigit_iff (c : Char) : c.isDigit = true ↔ 48 ≤ c.toNat ∧ c.toNat ≤ 57 := by
  show (decide (c.val ≥ 48) && decide (c.val ≤ 57)) = true ↔ _
  rw [Bool.and_eq_true, decide_eq_true_iff, decide_eq_true_iff]
  rfl

theorem toNat_ofNat_small (n : Nat) (h : n < 55296) : (Char.ofNat n).toNat = n := by
  rw [Char.ofNat, dif_pos (Or.inl h)]
  rfl

/-- `to_ascii_uppercase` is the identity off the lowercase range. -/
theorem toUpper_eq_self_of_not_lower {c : Char} (h : c.isLower = false) :
    c.toUpper = c := by
  have hn : ¬(97 ≤ c.toNat ∧ c.toNat ≤ 122) := fun hc => by
    rw [(isLower_iff c).mpr hc] at h
    simp at h
  rw [Char.toUpper, if_neg hn]

theorem isLower_false_of_word {c : Char} (h : (c.isUpper || c.isDigit) = true) :
    c.isLower = false := by
  by_contra hl
  have hl2 := (isLower_iff c).mp (by simpa using hl)
  rcases Bool.or_eq_true_iff.mp h with h2 | h2
  · have := (isUpper_iff c).mp h2
    omega
  · have := (isDigit_iff c).mp h2
    omega

/-- Uppercasing an alphanumeric character yields an uppercase letter or a
digit. -/
theorem toUpper_word_of_alnum {c : Char} (h : rustIsAlphanumeric c = true) :
    (c.toUpper.isUpper || c.toUpper.isDigit) = true := by
  have h2 : (c.isUpper || c.isLower || c.isDigit) = true := by
    simpa [rustIsAlphanumeric, Char.isAlphanum, Char.isAlpha,
      Bool.or_assoc] using h
  by_cases hl : c.isLower = true
  · have hrange := (isLower_iff c).mp hl
    rw [Char.toUpper, if_pos hrange]
    have htn : (Char.ofNat (c.toNat - 32)).toNat = c.toNat - 32 :=
      toNat_ofNat_small _ (by omega)
    have hup : (Char.ofNat (c.toNat - 32)).isUpper = true :=
      (isUpper_iff _).mpr (by rw [htn]; omega)
    simp [hup]
  · have hl2 : c.isLower = false := by simpa using hl
    rw [toUpper_eq_self_of_not_lower hl2]
    rcases Bool.or_eq_true_iff.mp h2 with h3 | h3
    · rcases Bool.or_eq_true_iff.mp h3 with h4 | h4
      · simp [h4]
      · rw [h4] at hl2; simp at hl2
    · simp [h3]

theorem word_not_sep {c : Char} (h : (c.isUpper || c.isDigit) = true) :
    charIsSeparator c = false := by
  rcases Bool.or_eq_true_iff.mp h with h2 | h2 <;>
    simp [charIsSeparator, rustIsAlphanumeric, Char.isAlphanum, Char.isAlpha, h2]

/-! ## C3: shape of screaming-snake output and idempotence -/

/-- Shape invariant of `to_screaming_snake_case` output: words of
uppercase letters and digits separated by single underscores, with no
leading or trailing underscore.  `afterWord` records whether the
previous character was a word character. -/
def goodFrom : Bool → List Char → Bool
  | _, [] => true
  | afterWord, c :: rest =>
    if c = '_' then afterWord && !rest.isEmpty && goodFrom false rest
    else (c.isUpper || c.isDigit) && goodFrom true rest

theorem goodFrom_underscore (b : Bool) (rest : List Char) :
    goodFrom b ('_' :: rest) = (b && !rest.isEmpty && goodFrom false rest) := by
  simp [goodFrom]

theorem goodFrom_word (b : Bool) {c : Char} (h : c ≠ '_') (rest : List Char) :
    goodFrom b (c :: rest) = ((c.isUpper || c.isDigit) && goodFrom true rest) := by
  simp [goodFrom, h]

/-- Unfolding the snake loop at a separator while `first_character` is
set: nothing is emitted. -/
theorem snakeGo_sep_first (orig : List Char) (r : Char) (u : Bool) (i : Nat)
    {c : Char} (rest : List (Nat × Char)) (hsep : charIsSeparator c = true) :
    snakeGo orig r u ((i, c) :: rest) true = snakeGo orig r u rest true := by
  simp only [snakeGo, hsep, if_pos, Bool.not_true, Bool.false_eq_true, if_false]

/-- Unfolding the snake loop at a separator after a real character: one
separator is emitted. -/
theorem snakeGo_sep_notFirst (orig : List Char) (r : Char) (u : Bool) (i : Nat)
    {c : Char} (rest : List (Nat × Char)) (hsep : charIsSeparator c = true) :
    snakeGo orig r u ((i, c) :: rest) false =
      r :: snakeGo orig r u rest true := by
  simp only [snakeGo, hsep, if_pos, Bool.not_false, if_true]

/-- Unfolding the snake loop at a word character that requires a
separator. -/
theorem snakeGo_word_req (orig : List Char) (r : Char) (i : Nat)
    {c : Char} (rest : List (Nat × Char)) {first : Bool}
    (hsep : charIsSeparator c = false)
    (hreq : requiresSeparator orig i c first = true) :
    snakeGo orig r true ((i, c) :: rest) first =
      r :: c.toUpper :: snakeGo orig r true rest false := by
  simp only [snakeGo, hsep, Bool.false_eq_true, if_false, hreq, if_pos, if_true]

/-- Unfolding the snake loop at a word character with no separator
required. -/
theorem snakeGo_word_noreq (orig : List Char) (r : Char) (i : Nat)
    {c : Char} (rest : List (Nat × Char)) {first : Bool}
    (hsep : charIsSeparator c = false)
    (hreq : requiresSeparator orig i c first = false) :
    snakeGo orig r true ((i, c) :: rest) first =
      c.toUpper :: snakeGo orig r true rest false := by
  simp only [snakeGo, hsep, Bool.false_eq_true, if_false, hreq, if_true]

/-- The snake loop never produces an empty string when some remaining
character is alphanumeric. -/
theorem snakeGo_ne_nil (orig : List Char) (l : List (Nat × Char))
    (first : Bool) (hw : ∃ x ∈ l, rustIsAlphanumeric x.2 = true) :
    snakeGo orig '_' true l first ≠ [] := by
  induction l generalizing first with
  | nil => simp at hw
  | cons p rest ih =>
    obtain ⟨i, c⟩ := p
    by_cases hsep : charIsSeparator c = true
    · have hw2 : ∃ x ∈ rest, rustIsAlphanumeric x.2 = true := by
        obtain ⟨x, hx, hxa⟩ := hw
        rcases List.mem_cons.mp hx with rfl | hx2
        · have hcf : rustIsAlphanumeric c = false := by
            simpa [charIsSeparator] using hsep
          rw [hcf] at hxa
          simp at hxa
        · exact ⟨x, hx2, hxa⟩
      cases first with
      | true =>
        rw [snakeGo_sep_first orig '_' true i rest hsep]
        exact ih true hw2
      | false =>
        rw [snakeGo_sep_notFirst orig '_' true i rest hsep]
        simp
    · have hsep2 : charIsSeparator c = false := by simpa using hsep
      by_cases hreq : requiresSeparator orig i c first = true
      · rw [snakeGo_word_req orig '_' i rest hsep2 hreq]
        simp
      · rw [snakeGo_word_noreq orig '_' i rest hsep2 (by simpa using hreq)]
        simp

/-- If the last remaining character is alphanumeric, the snake loop's
output satisfies the shape invariant (with `afterWord` tracking the
negation of `first_character`). -/
theorem snakeGo_good (orig : List Char) (l : List (Nat × Char))
    (first : Bool)
    (hlast : ∀ x, l.getLast? = some x → rustIsAlphanumeric x.2 = true) :
    goodFrom (!first) (snakeGo orig '_' true l first) = true := by
  induction l generalizing first with
  | nil => cases first <;> rfl
  | cons p rest ih =>
    obtain ⟨i, c⟩ := p
    by_cases hsep : charIsSeparator c = true
    · have hrestne : rest ≠ [] := by
        intro hr
        subst hr
        have ha := hlast (i, c) rfl
        have hcf : rustIsAlphanumeric c = false := by
          simpa [charIsSeparator] using hsep
        rw [ha] at hcf
        simp at hcf
      have hlast2 : ∀ x, rest.getLast? = some x →
          rustIsAlphanumeric x.2 = true := by
        intro x hx
        rcases rest with _ | ⟨q, t⟩
        · simp at hx
        · exact hlast x (List.getLast?_cons_cons.trans hx)
      obtain ⟨xl, hxl⟩ : ∃ x, rest.getLast? = some x := by
        rcases rest with _ | ⟨q, t⟩
        · exact absurd rfl hrestne
        · simp [List.getLast?_eq_getLast]
      have hxmem : xl ∈ rest := List.mem_of_mem_getLast? hxl
      have hxa : rustIsAlphanumeric xl.2 = true := hlast2 xl hxl
      cases first with
      | true =>
        rw [snakeGo_sep_first orig '_' true i rest hsep]
        exact ih true hlast2
      | false =>
        rw [snakeGo_sep_notFirst orig '_' true i rest hsep]
        rw [goodFrom_underscore]
        have hne := snakeGo_ne_nil orig rest true ⟨xl, hxmem, hxa⟩
        have hgood := ih true hlast2
        simp only [Bool.not_true] at hgood
        rw [Bool.and_eq_true, Bool.and_eq_true]
        refine ⟨⟨rfl, ?_⟩, hgood⟩
        simpa using hne
    · have hsep2 : charIsSeparator c = false := by simpa using hsep
      have hc : rustIsAlphanumeric c = true := by
        have := hsep2
        simp only [charIsSeparator] at this
        simpa using this
      have hlast2 : ∀ x, rest.getLast? = some x →
          rustIsAlphanumeric x.2 = true := by
        intro x hx
        rcases rest with _ | ⟨q, t⟩
        · simp at hx
        · exact hlast x (List.getLast?_cons_cons.trans hx)
      have hword := toUpper_word_of_alnum hc
      have hupne : c.toUpper ≠ '_' := by
        intro he
        rw [he] at hword
        simp at hword
      have hgood := ih false hlast2
      simp only [Bool.not_false] at hgood
      by_cases hreq : requiresSeparator orig i c first = true
      · have hfirst : (!first) = true := by
          have h2 := hreq
          unfold requiresSeparator at h2
          rw [Bool.and_eq_true, Bool.and_eq_true] at h2
          exact h2.1.1
        rw [snakeGo_word_req orig '_' i rest hsep2 hreq]
        rw [goodFrom_underscore, hfirst]
        rw [goodFrom_word false hupne]
        rw [Bool.and_eq_true, Bool.and_eq_true]
        exact ⟨⟨rfl, by simp⟩, by rw [Bool.and_eq_true]; exact ⟨hword, hgood⟩⟩
      · rw [snakeGo_word_noreq orig '_' i rest hsep2 (by simpa using hreq)]
        rw [goodFrom_word (!first) hupne]
        rw [Bool.and_eq_true]
        exact ⟨hword, hgood⟩

/-- The character component of the last entry of `enumFrom` is the last
character of the underlying list. -/
theorem enumFrom_getLast_snd (l : List Char) :
    ∀ (n : Nat) (x : Nat × Char), (List.enumFrom n l).getLast? = some x →
      l.getLast? = some x.2 := by
  induction l with
  | nil => intro n x hx; simp at hx
  | cons c t ih =>
    intro n x hx
    rcases t with _ | ⟨d, t2⟩
    · simp only [List.enumFrom, List.getLast?_singleton, Option.some.injEq] at hx
      rw [← hx]
      rfl
    · rw [show List.enumFrom n (c :: d :: t2) =
          (n, c) :: (n + 1, d) :: List.enumFrom (n + 2) t2 from rfl,
        List.getLast?_cons_cons] at hx
      rw [List.getLast?_cons_cons]
      exact ih (n + 1) x hx

/-- The head of a `dropWhile` result fails the predicate. -/
theorem head?_dropWhile_false {p : Char → Bool} {l : List Char} {c : Char}
    (h : (l.dropWhile p).head? = some c) : p c = false := by
  induction l with
  | nil => simp at h
  | cons a t ih =>
    rw [List.dropWhile_cons] at h
    by_cases hp : p a = true
    · rw [if_pos hp] at h
      exact ih h
    · rw [if_neg hp] at h
      simp only [List.head?_cons, Option.some.injEq] at h
      rw [← h]
      simpa using hp

/-- The last character of `trim_right`'s output is alphanumeric. -/
theorem trimRight_getLast_alnum (s : List Char) (x : Char)
    (hx : (trimRightNonAlnum s).getLast? = some x) :
    rustIsAlphanumeric x = true := by
  unfold trimRightNonAlnum at hx
  rw [List.getLast?_reverse] at hx
  have := head?_dropWhile_false hx
  simpa using this

/-- Strings of the screaming-snake shape contain no lowercase
character. -/
theorem goodFrom_no_lower : ∀ (b : Bool) (l : List Char),
    goodFrom b l = true → ∀ c ∈ l, c.isLower = false := by
  intro b l
  induction l generalizing b with
  | nil => intro _ c hc; simp at hc
  | cons a t ih =>
    intro h c hc
    by_cases ha : a = '_'
    · subst ha
      rw [goodFrom_underscore, Bool.and_eq_true, Bool.and_eq_true] at h
      rcases List.mem_cons.mp hc with rfl | hc2
      · decide
      · exact ih false h.2 c hc2
    · rw [goodFrom_word b ha, Bool.and_eq_true] at h
      rcases List.mem_cons.mp hc with rfl | hc2
      · exact isLower_false_of_word h.1
      · exact ih true h.2 c hc2

/-- Strings of the screaming-snake shape end with an alphanumeric
character. -/
theorem goodFrom_getLast_alnum : ∀ (b : Bool) (l : List Char),
    goodFrom b l = true → ∀ x, l.getLast? = some x →
      rustIsAlphanumeric x = true := by
  intro b l
  induction l generalizing b with
  | nil => intro _ x hx; simp at hx
  | cons a t ih =>
    intro h x hx
    rcases t with _ | ⟨d, t2⟩
    · simp only [List.getLast?_singleton, Option.some.injEq] at hx
      rw [← hx]
      by_cases ha : a = '_'
      · subst ha
        rw [goodFrom_underscore] at h
        simp at h
      · rw [goodFrom_word b ha, Bool.and_eq_true] at h
        rcases Bool.or_eq_true_iff.mp h.1 with h2 | h2 <;>
          simp [rustIsAlphanumeric, Char.isAlphanum, Char.isAlpha, h2]
    · rw [List.getLast?_cons_cons] at hx
      by_cases ha : a = '_'
      · subst ha
        rw [goodFrom_underscore, Bool.and_eq_true, Bool.and_eq_true] at h
        exact ih false h.2 x hx
      · rw [goodFrom_word b ha, Bool.and_eq_true] at h
        exact ih true h.2 x hx

/-- Lookups with default `'A'` into a string with no lowercase character
never produce a lowercase character. -/
theorem getD_isLower_false {y : List Char}
    (hnl : ∀ c ∈ y, c.isLower = false) (j : Nat) :
    (y.getD j 'A').isLower = false := by
  rw [List.getD_eq_getElem?_getD]
  rcases h : y[j]? with _ | c
  · rw [Option.getD_none]
    decide
  · rw [Option.getD_some]
    exact hnl c (List.getElem?_mem h)

/-- Running the snake loop over a string that already has the
screaming-snake shape reproduces it exactly: every `requires_separator`
test fails (no lowercase neighbours exist), word characters are fixed by
`to_ascii_uppercase`, and each underscore is re-emitted once. -/
theorem snakeGo_identity (y : List Char)
    (hnl : ∀ c ∈ y, c.isLower = false) :
    ∀ (cs : List Char) (n : Nat) (b : Bool), goodFrom b cs = true →
      snakeGo y '_' true (List.enumFrom n cs) (!b) = cs := by
  intro cs
  induction cs with
  | nil => intro n b _; rfl
  | cons c rest ih =>
    intro n b h
    rw [show List.enumFrom n (c :: rest) =
        (n, c) :: List.enumFrom (n + 1) rest from rfl]
    by_cases hcu : c = '_'
    · subst hcu
      rw [goodFrom_underscore, Bool.and_eq_true, Bool.and_eq_true] at h
      obtain ⟨⟨hb, _⟩, hrest⟩ := h
      subst hb
      simp only [Bool.not_true]
      rw [snakeGo_sep_notFirst y '_' true n (List.enumFrom (n + 1) rest)
        (by decide)]
      have hr := ih (n + 1) false hrest
      simp only [Bool.not_false] at hr
      rw [hr]
    · rw [goodFrom_word b hcu, Bool.and_eq_true] at h
      obtain ⟨hword, hrest⟩ := h
      have hsep : charIsSeparator c = false := word_not_sep hword
      have hreq : requiresSeparator y n c (!b) = false := by
        unfold requiresSeparator nextOrPreviousCharIsLowercase
        have h1 : (y.getD (n + 1) 'A').isLower = false :=
          getD_isLower_false hnl (n + 1)
        have h2 : (if n = 0 then false
            else (y.getD (n - 1) 'A').isLower) = false := by
          by_cases hn : n = 0
          · rw [if_pos hn]
          · rw [if_neg hn]
            exact getD_isLower_false hnl (n - 1)
        rw [h1, h2]
        simp
      rw [snakeGo_word_noreq y '_' n (List.enumFrom (n + 1) rest) hsep hreq]
      rw [toUpper_eq_self_of_not_lower (isLower_false_of_word hword)]
      have hr := ih (n + 1) true hrest
      simp only [Bool.not_true] at hr
      rw [hr]

/-- Strings of the screaming-snake shape are untouched by `trim_right`. -/
theorem trimRight_eq_self_of_good {b : Bool} {y : List Char}
    (h : goodFrom b y = true) : trimRightNonAlnum y = y := by
  rcases hy : y.reverse.head? with _ | c
  · have hrev : y.reverse = [] := by
      rcases hr : y.reverse with _ | ⟨a, t⟩
      · rfl
      · rw [hr] at hy; simp at hy
    have hynil : y = [] := by simpa using congrArg List.reverse hrev
    subst hynil
    rfl
  · have hlast : y.getLast? = some c := by
      rw [← List.head?_reverse]
      exact hy
    have halnum := goodFrom_getLast_alnum b y h c hlast
    unfold trimRightNonAlnum
    rw [dropWhile_eq_self_of_head (fun d hd => by
      rw [hy] at hd
      injection hd with hd
      subst hd
      simp [halnum]), List.reverse_reverse]

/-- The output of `to_screaming_snake_case` always has the
screaming-snake shape. -/
theorem toScreamingSnakeCase_good (s : List Char) :
    goodFrom false (toScreamingSnakeCase s) = true := by
  unfold toScreamingSnakeCase toCaseSnakeLike
  have h := snakeGo_good s (trimRightNonAlnum s).enum true (fun x hx =>
    trimRight_getLast_alnum s x.2 (enumFrom_getLast_snd _ 0 x hx))
  simpa using h

/-- C3 amended: for the SCREAMING_SNAKE style, conversion output is
always already in its own style: for every ASCII input `x`,
`is_screaming_snake_case(to_screaming_snake_case(x))` is true.  (The
universal claim over all styles fails: camel case violates it, see the
counterexample; the snake/kebab/pascal/train variants are not present
in the source tree.) -/
theorem C3_amended_screaming_snake_idempotent (s : List Char)
    (_hascii : ∀ c ∈ s, c.toNat < 128) :
    isScreamingSnakeCase (toScreamingSnakeCase s) = true := by
  have hgood := toScreamingSnakeCase_good s
  have hnl := goodFrom_no_lower false (toScreamingSnakeCase s) hgood
  have htrim := trimRight_eq_self_of_good hgood
  have hrun := snakeGo_identity (toScreamingSnakeCase s) hnl
    (toScreamingSnakeCase s) 0 false hgood
  simp only [Bool.not_false] at hrun
  have key : toCaseSnakeLike (toScreamingSnakeCase s) '_' true =
      toScreamingSnakeCase s := by
    unfold toCaseSnakeLike
    rw [htrim]
    exact hrun
  have key2 : toScreamingSnakeCase (toScreamingSnakeCase s) =
      toScreamingSnakeCase s := key
  simp [isScreamingSnakeCase, key2]

/-- Witness for C3 amended at the concrete ASCII input `"fooBar"`. -/
theorem C3_amended_witness :
    isScreamingSnakeCase (toScreamingSnakeCase
      ['f', 'o', 'o', 'B', 'a', 'r']) = true :=
  C3_amended_screaming_snake_idempotent ['f', 'o', 'o', 'B', 'a', 'r']
    (by decide)

/-! ## C8: characterization of the acronym rewrite -/

/-- Modelled from the spec's description of the rewrite (`replace_all`
over the already-cased output): the start offsets within `s` selected by
the leftmost non-overlapping case-insensitive scan for `pat`.  Fuel as in
`replaceAllGo`. -/
def greedyOccs (pat : List Char) : Nat → List Char → List Nat
  | 0, _ => []
  | fuel + 1, s =>
    match findCi pat s with
    | none => []
    | some i =>
      i :: (greedyOccs pat fuel (s.drop (i + pat.length))).map
        (· + (i + pat.length))

/-- A case-insensitive prefix is no longer than the string. -/
theorem ciIsPrefix_length {pat l : List Char}
    (h : ciIsPrefix pat l = true) : pat.length ≤ l.length := by
  induction pat generalizing l with
  | nil => simp
  | cons p ps ih =>
    rcases l with _ | ⟨c, cs⟩
    · simp [ciIsPrefix] at h
    · rw [show ciIsPrefix (p :: ps) (c :: cs) =
          (ciCharEq p c && ciIsPrefix ps cs) from rfl, Bool.and_eq_true] at h
      have := ih h.2
      simp only [List.length_cons]
      omega

/-- `findCi` returns an actual occurrence. -/
theorem findCi_some_isPrefix {pat s : List Char} {i : Nat}
    (h : findCi pat s = some i) : ciIsPrefix pat (s.drop i) = true := by
  induction s generalizing i with
  | nil =>
    rw [show findCi pat [] = (if pat.isEmpty then some 0 else none) from rfl] at h
    by_cases hp : pat.isEmpty
    · rw [if_pos hp] at h
      injection h with h
      subst h
      rcases pat with _ | _
      · rfl
      · simp at hp
    · rw [if_neg hp] at h
      exact absurd h (by simp)
  | cons c cs ih =>
    rw [show findCi pat (c :: cs) =
        (if ciIsPrefix pat (c :: cs) = true then some 0
          else (findCi pat cs).map (· + 1)) from rfl] at h
    by_cases hp : ciIsPrefix pat (c :: cs) = true
    · rw [if_pos hp] at h
      injection h with h
      subst h
      exact hp
    · rw [if_neg hp] at h
      rcases hf : findCi pat cs with _ | i2
      · rw [hf] at h
        exact absurd h (by simp)
      · rw [hf] at h
        simp only [Option.map_some', Option.some.injEq] at h
        subst h
        exact ih hf

/-- `findCi` returns the leftmost occurrence. -/
theorem findCi_some_min {pat s : List Char} {i : Nat}
    (h : findCi pat s = some i) :
    ∀ j, j < i → ciIsPrefix pat (s.drop j) = false := by
  induction s generalizing i with
  | nil =>
    intro j hj
    rw [show findCi pat [] = (if pat.isEmpty then some 0 else none) from rfl] at h
    by_cases hp : pat.isEmpty
    · rw [if_pos hp] at h
      injection h with h
      omega
    · rw [if_neg hp] at h
      exact absurd h (by simp)
  | cons c cs ih =>
    intro j hj
    rw [show findCi pat (c :: cs) =
        (if ciIsPrefix pat (c :: cs) = true then some 0
          else (findCi pat cs).map (· + 1)) from rfl] at h
    by_cases hp : ciIsPrefix pat (c :: cs) = true
    · rw [if_pos hp] at h
      injection h with h
      omega
    · rw [if_neg hp] at h
      rcases hf : findCi pat cs with _ | i2
      · rw [hf] at h
        exact absurd h (by simp)
      · rw [hf] at h
        simp only [Option.map_some', Option.some.injEq] at h
        subst h
        rcases j with _ | j2
        · simpa using hp
        · exact ih hf j2 (by omega)

/-- When `findCi` fails there is no occurrence anywhere. -/
theorem findCi_none {pat s : List Char} (hp : pat ≠ [])
    (h : findCi pat s = none) :
    ∀ j, ciIsPrefix pat (s.drop j) = false := by
  induction s with
  | nil =>
    intro j
    rcases pat with _ | ⟨p, ps⟩
    · exact absurd rfl hp
    · simp [ciIsPrefix]
  | cons c cs ih =>
    intro j
    rw [show findCi pat (c :: cs) =
        (if ciIsPrefix pat (c :: cs) = true then some 0
          else (findCi pat cs).map (· + 1)) from rfl] at h
    by_cases hpp : ciIsPrefix pat (c :: cs) = true
    · rw [if_pos hpp] at h
      exact absurd h (by simp)
    · rw [if_neg hpp] at h
      have h2 : findCi pat cs = none := by
        rcases hf : findCi pat cs with _ | i2
        · rfl
        · rw [hf] at h
          exact absurd h (by simp)
      rcases j with _ | j2
      · simpa using hpp
      · exact ih h2 j2

/-- A successful `findCi` fits within the string. -/
theorem findCi_some_le {pat s : List Char} {i : Nat} (hp : pat ≠ [])
    (h : findCi pat s = some i) : i + pat.length ≤ s.length := by
  have h1 := findCi_some_isPrefix h
  have h2 := ciIsPrefix_length h1
  rw [List.length_drop] at h2
  have h3 : 1 ≤ pat.length := by
    rcases pat with _ | _
    · exact absurd rfl hp
    · simp
  omega

theorem length_pos_of_ne_nil {pat : List Char} (hp : pat ≠ []) :
    1 ≤ pat.length := by
  rcases pat with _ | _
  · exact absurd rfl hp
  · simp

/-- The rewrite preserves length. -/
theorem replaceAllGo_length (pat : List Char) (hp : pat ≠ []) :
    ∀ (fuel : Nat) (s : List Char),
      (replaceAllGo pat fuel s).length = s.length := by
  intro fuel
  induction fuel with
  | zero => intro s; rfl
  | succ fuel ih =>
    intro s
    rcases hf : findCi pat s with _ | i
    · simp [replaceAllGo, hf]
    · have hle := findCi_some_le hp hf
      simp only [replaceAllGo, hf, List.length_append, List.length_map,
        List.length_take, List.length_drop, ih]
      omega

/-- Every selected position is a case-insensitive occurrence. -/
theorem greedyOccs_isPrefix (pat : List Char) :
    ∀ (fuel : Nat) (s : List Char) (p : Nat),
      p ∈ greedyOccs pat fuel s → ciIsPrefix pat (s.drop p) = true := by
  intro fuel
  induction fuel with
  | zero => intro s p hp2; simp [greedyOccs] at hp2
  | succ fuel ih =>
    intro s p hp2
    rcases hf : findCi pat s with _ | i
    · simp [greedyOccs, hf] at hp2
    · simp only [greedyOccs, hf, List.mem_cons, List.mem_map] at hp2
      rcases hp2 with rfl | ⟨q, hq, rfl⟩
      · exact findCi_some_isPrefix hf
      · rw [Nat.add_comm q (i + pat.length), ← List.drop_drop]
        exact ih _ q hq

/-- Selected positions are sorted and pairwise non-overlapping. -/
theorem greedyOccs_chain (pat : List Char) :
    ∀ (fuel : Nat) (s : List Char),
      List.Chain' (fun a b => a + pat.length ≤ b) (greedyOccs pat fuel s) := by
  intro fuel
  induction fuel with
  | zero => intro s; simp [greedyOccs]
  | succ fuel ih =>
    intro s
    rcases hf : findCi pat s with _ | i
    · simp [greedyOccs, hf]
    · simp only [greedyOccs, hf]
      rw [List.chain'_cons']
      constructor
      · intro b hb
        rcases hg : greedyOccs pat fuel (s.drop (i + pat.length)) with _ | ⟨q, t⟩
        · rw [hg] at hb; simp at hb
        · rw [hg] at hb
          simp only [List.map_cons, List.head?_cons, Option.mem_def,
            Option.some.injEq] at hb
          omega
      · rw [List.chain'_map]
        refine List.Chain'.imp ?_ (ih (s.drop (i + pat.length)))
        intro a b hab
        omega

/-- Characters inside a selected occurrence are uppercased (pointwise on
indices). -/
theorem replaceAllGo_inside (pat : List Char) (hp : pat ≠ []) :
    ∀ (fuel : Nat) (s : List Char) (j : Nat),
      (∃ p ∈ greedyOccs pat fuel s, p ≤ j ∧ j < p + pat.length) →
      (replaceAllGo pat fuel s)[j]? = (s[j]?).map Char.toUpper := by
  intro fuel
  induction fuel with
  | zero => intro s j hj; simp [greedyOccs] at hj
  | succ fuel ih =>
    intro s j hj
    rcases hf : findCi pat s with _ | i
    · simp [greedyOccs, hf] at hj
    · simp only [greedyOccs, hf, List.mem_cons, List.mem_map] at hj
      obtain ⟨p, hmem, hpj1, hpj2⟩ := hj
      have hle := findCi_some_le hp hf
      have hLpos := length_pos_of_ne_nil hp
      have hlen1 : (s.take i).length = i := by
        rw [List.length_take]; omega
      have hlen2 : (((s.drop i).take pat.length).map Char.toUpper).length =
          pat.length := by
        simp only [List.length_map, List.length_take, List.length_drop]
        omega
      simp only [replaceAllGo, hf]
      rcases hmem with hpi | ⟨q, hq, rfl⟩
      · rw [hpi] at hpj1 hpj2
        rw [List.append_assoc,
          List.getElem?_append_right (by omega : (s.take i).length ≤ j),
          hlen1,
          List.getElem?_append_left (by rw [hlen2]; omega),
          List.getElem?_map, List.getElem?_take_of_lt (by omega : j - i < pat.length),
          List.getElem?_drop]
        have hpj : i + (j - i) = j := by omega
        rw [hpj]
      · have hlen12 : ((s.take i) ++ ((s.drop i).take pat.length).map Char.toUpper).length =
            i + pat.length := by
          rw [List.length_append, hlen1, hlen2]
        rw [List.getElem?_append_right (by rw [hlen12]; omega), hlen12]
        have hih := ih (s.drop (i + pat.length)) (j - (i + pat.length))
          ⟨q, hq, by omega, by omega⟩
        rw [hih, List.getElem?_drop]
        have hj2 : i + pat.length + (j - (i + pat.length)) = j := by omega
        rw [hj2]

/-- Characters outside every selected occurrence are unchanged. -/
theorem replaceAllGo_outside (pat : List Char) (hp : pat ≠ []) :
    ∀ (fuel : Nat) (s : List Char) (j : Nat),
      (∀ p ∈ greedyOccs pat fuel s, j < p ∨ p + pat.length ≤ j) →
      (replaceAllGo pat fuel s)[j]? = s[j]? := by
  intro fuel
  induction fuel with
  | zero => intro s j _; rfl
  | succ fuel ih =>
    intro s j hj
    rcases hf : findCi pat s with _ | i
    · simp [replaceAllGo, hf]
    · have hji := hj i (by simp [greedyOccs, hf])
      have hle := findCi_some_le hp hf
      have hLpos := length_pos_of_ne_nil hp
      have hlen1 : (s.take i).length = i := by
        rw [List.length_take]; omega
      have hlen2 : (((s.drop i).take pat.length).map Char.toUpper).length =
          pat.length := by
        simp only [List.length_map, List.length_take, List.length_drop]
        omega
      simp only [replaceAllGo, hf]
      rcases hji with hji | hji
      · rw [List.append_assoc,
          List.getElem?_append_left (by omega : j < (s.take i).length),
          List.getElem?_take_of_lt (by omega : j < i)]
      · have hlen12 : ((s.take i) ++ ((s.drop i).take pat.length).map Char.toUpper).length =
            i + pat.length := by
          rw [List.length_append, hlen1, hlen2]
        rw [List.getElem?_append_right (by rw [hlen12]; omega), hlen12]
        have hih := ih (s.drop (i + pat.length)) (j - (i + pat.length)) ?_
        · rw [hih, List.getElem?_drop]
          have hj2 : i + pat.length + (j - (i + pat.length)) = j := by omega
          rw [hj2]
        · intro p2 hp2
          have := hj (p2 + (i + pat.length)) (by
            simp only [greedyOccs, hf, List.mem_cons, List.mem_map]
            exact Or.inr ⟨p2, hp2, rfl⟩)
          omega

/-- Every case-insensitive occurrence overlaps a selected (rewritten)
occurrence. -/
theorem greedyOccs_cover (pat : List Char) (hp : pat ≠ []) :
    ∀ (fuel : Nat) (s : List Char), s.length ≤ fuel →
      ∀ q, ciIsPrefix pat (s.drop q) = true →
      ∃ p ∈ greedyOccs pat fuel s, p < q + pat.length ∧ q < p + pat.length := by
  intro fuel
  induction fuel with
  | zero =>
    intro s hs q hq
    rcases s with _ | ⟨a, t⟩
    · rcases pat with _ | ⟨c, cs⟩
      · exact absurd rfl hp
      · rw [List.drop_nil] at hq
        simp [ciIsPrefix] at hq
    · simp at hs
  | succ fuel ih =>
    intro s hs q hq
    rcases hf : findCi pat s with _ | i
    · rw [findCi_none hp hf q] at hq
      simp at hq
    · have hLpos := length_pos_of_ne_nil hp
      have hle := findCi_some_le hp hf
      by_cases hqi : q < i
      · rw [findCi_some_min hf q hqi] at hq
        simp at hq
      · by_cases hq2 : q < i + pat.length
        · exact ⟨i, by simp [greedyOccs, hf], by omega, by omega⟩
        · have hq3 : ciIsPrefix pat
              ((s.drop (i + pat.length)).drop (q - (i + pat.length))) = true := by
            rw [List.drop_drop]
            have he : (i + pat.length) + (q - (i + pat.length)) = q := by omega
            rw [he]
            exact hq
          have hlen : (s.drop (i + pat.length)).length ≤ fuel := by
            rw [List.length_drop]; omega
          obtain ⟨p2, hp2, h1, h2⟩ :=
            ih (s.drop (i + pat.length)) hlen (q - (i + pat.length)) hq3
          refine ⟨p2 + (i + pat.length), ?_, by omega, by omega⟩
          simp only [greedyOccs, hf, List.mem_cons, List.mem_map]
          exact Or.inr ⟨p2, hp2, rfl⟩

/-- C8 amended: the acronym rewrite applied to the already-cased output
rewrites exactly the case-insensitive occurrences selected by a leftmost
non-overlapping scan — wherever they lie, including across word
boundaries or inside another word — uppercasing the raw matched text and
leaving every character outside the selected occurrences unchanged.
Occurrences skipped because they overlap an earlier selected occurrence
are not rewritten (hence the `"aaa"`/`"aa"` counterexample), but every
occurrence at least overlaps a rewritten one. -/
theorem C8_amended_greedy_rewrite (pat s : List Char) (hp : pat ≠ []) :
    (capitalizeAcronymSubstrings s [pat]).length = s.length ∧
    (∀ p ∈ greedyOccs pat s.length s, ciIsPrefix pat (s.drop p) = true) ∧
    List.Chain' (fun a b => a + pat.length ≤ b) (greedyOccs pat s.length s) ∧
    (∀ j, (∃ p ∈ greedyOccs pat s.length s, p ≤ j ∧ j < p + pat.length) →
      (capitalizeAcronymSubstrings s [pat])[j]? = (s[j]?).map Char.toUpper) ∧
    (∀ j, (∀ p ∈ greedyOccs pat s.length s, j < p ∨ p + pat.length ≤ j) →
      (capitalizeAcronymSubstrings s [pat])[j]? = s[j]?) ∧
    (∀ q, ciIsPrefix pat (s.drop q) = true →
      ∃ p ∈ greedyOccs pat s.length s,
        p < q + pat.length ∧ q < p + pat.length) := by
  have hcap : capitalizeAcronymSubstrings s [pat] =
      replaceAllGo pat s.length s := by
    simp only [capitalizeAcronymSubstrings, List.foldl_cons, List.foldl_nil,
      replaceAllCiUpper]
    rw [if_neg (by simpa using hp)]
  rw [hcap]
  exact ⟨replaceAllGo_length pat hp s.length s,
    fun p hp2 => greedyOccs_isPrefix pat s.length s p hp2,
    greedyOccs_chain pat s.length s,
    fun j hj => replaceAllGo_inside pat hp s.length s j hj,
    fun j hj => replaceAllGo_outside pat hp s.length s j hj,
    fun q hq => greedyOccs_cover pat hp s.length s (Nat.le_refl _) q hq⟩

/-- Witness for C8 amended with acronym `"db"` inside the cased word
`"standby"`: the rewrite has the same length, and position 4 (inside the
occurrence spanning `"db"`) is uppercased. -/
theorem C8_amended_witness :
    (capitalizeAcronymSubstrings ['s', 't', 'a', 'n', 'd', 'b', 'y']
      [['d', 'b']]).length = 7 ∧
    (capitalizeAcronymSubstrings ['s', 't', 'a', 'n', 'd', 'b', 'y']
      [['d', 'b']])[4]? = some 'D' := by
  have h := C8_amended_greedy_rewrite ['d', 'b']
    ['s', 't', 'a', 'n', 'd', 'b', 'y'] (by decide)
  constructor
  · have h1 := h.1
    simpa using h1
  · have h4 := h.2.2.2.1 4 (by decide)
    rw [h4]
    decide

end Codesync
